import Mathlib

set_option maxRecDepth 8000

/-! Shallow embedding of src/script.py, a class-schedule annotator.
    File A helpers build a lookup table from a timetable workbook;
    File B helpers scan schedule cells for class+period tokens and
    append looked-up suffix lines to the matched cells. -/

/-- Cell values as openpyxl returns them with data_only set: absent, text,
    or numeric. Numeric cells are modelled as integers. -/
inductive CellVal where
  | vNone : CellVal
  | vStr : String → CellVal
  | vNum : Int → CellVal
deriving DecidableEq, Repr

/-- Python str() on a cell value (clean_text applies it only after the
    None check). -/
def pyStr : CellVal → String
  | .vNone => "None"
  | .vStr s => s
  | .vNum n => toString n

/-- ASCII whitespace, modelling Python str.strip and the regex class \s. -/
def isPySpace (c : Char) : Bool :=
  c == ' ' || c == '\t' || c == '\n' || c == '\r' || c.val == 11 || c.val == 12

/-- Dash and placeholder glyphs treated as empty markers in clean_text:
    hyphen-minus, em dash, en dash, fullwidth hyphen-minus. -/
def dashChars : List Char := ['-', '—', '–', '－']

/-- Python str.strip with an arbitrary character predicate: drop matching
    characters from both ends. -/
def stripEnds (p : Char → Bool) (l : List Char) : List Char :=
  ((l.dropWhile p).reverse.dropWhile p).reverse

/-- Collapse each run of whitespace to a single space, as re.sub of \s+ with
    one space. The flag records whether the previous character was
    whitespace. -/
def collapseWs : Bool → List Char → List Char
  | _, [] => []
  | prevSp, c :: rest =>
    if isPySpace c then
      if prevSp then collapseWs true rest else ' ' :: collapseWs true rest
    else c :: collapseWs false rest

/-- Embedding of clean_text from script.py: None becomes empty; the text is
    stripped; a pure dash/space string becomes empty; internal whitespace
    runs collapse to single spaces. -/
def cleanText (x : CellVal) : String :=
  match x with
  | .vNone => ""
  | _ =>
    let s := stripEnds isPySpace (pyStr x).toList
    if s.asString ∈ ["-", "—", "–", "－"] ∨
        stripEnds (fun c => c == ' ' || dashChars.contains c) s = [] then ""
    else (collapseWs false s).asString

/-- Python str.isdigit over ASCII digits: nonempty and all digits. -/
def pyIsDigit (s : String) : Bool := !s.isEmpty && s.toList.all Char.isDigit

/-- Python dict over string keys, as an insertion-ordered association list:
    lookup returns the value at the unique (first) matching key. -/
def dictFind {α : Type} (d : List (String × α)) (k : String) : Option α :=
  (d.find? (fun p => p.1 == k)).map (fun p => p.2)

/-- Python dict assignment: overwrite the value in place when the key is
    present, otherwise append the new pair at the end, preserving insertion
    order exactly as a Python dict does. -/
def dictInsert {α : Type} (d : List (String × α)) (k : String) (v : α) :
    List (String × α) :=
  match d with
  | [] => [(k, v)]
  | p :: rest => if p.1 == k then (k, v) :: rest else p :: dictInsert rest k v

/-- Python dict.update: insert every pair of m, in order. -/
def dictUpdate {α : Type} (d m : List (String × α)) : List (String × α) :=
  m.foldl (fun acc p => dictInsert acc p.1 p.2) d

/-- A merged cell range, rows and columns 1-based as in openpyxl. -/
structure MRange where
  min_row : Nat
  max_row : Nat
  min_col : Nat
  max_col : Nat
deriving DecidableEq, Repr

/-- A File A worksheet: cell values by (row, column), merged ranges, and
    extents. -/
structure WsA where
  cellVal : Nat → Nat → CellVal
  merged : List MRange
  max_row : Nat
  max_column : Nat

/-- Embedding of get_class_columns: scan merged header ranges on row 1,
    mapping each nonempty cleaned header not starting in column A to the
    rightmost column of its merge and marking the merged columns consumed;
    then scan the remaining single header cells from column 2 on. -/
def get_class_columns (ws : WsA) : List (String × Nat) :=
  let step1 : List (String × Nat) × List Nat :=
    ws.merged.foldl (fun acc mr =>
      if mr.min_row = 1 ∧ mr.max_row = 1 then
        let header_val := cleanText (ws.cellVal 1 mr.min_col)
        if header_val ≠ "" ∧ mr.min_col ≠ 1 then
          (dictInsert acc.1 header_val mr.max_col,
           acc.2 ++ List.range' mr.min_col (mr.max_col + 1 - mr.min_col))
        else acc
      else acc) ([], [])
  (List.range' 2 (ws.max_column - 1)).foldl (fun cc col =>
    if step1.2.contains col then cc
    else
      let header_val := cleanText (ws.cellVal 1 col)
      if header_val ≠ "" then dictInsert cc header_val col else cc) step1.1

/-- One period block: (start_row, end_row, period string). -/
abbrev Block := Nat × Nat × String

/-- Stable ascending insertion by start row, modelling list.sort with the
    start-row key. -/
def insertByStart (b : Block) : List Block → List Block
  | [] => [b]
  | x :: xs => if x.1 < b.1 then x :: insertByStart b xs else b :: x :: xs

/-- Stable sort of blocks by start row. -/
def sortByStart : List Block → List Block
  | [] => []
  | b :: rest => insertByStart b (sortByStart rest)

/-- Fallback scan of column A: a digit cell with two rows of room below
    starts a 3-row block and the scan resumes after the block; otherwise
    the scan moves one row down. Fuel bounds the loop; every step advances
    the row, so max_row steps suffice from row 1. -/
def scanA (ws : WsA) : Nat → Nat → List Block
  | 0, _ => []
  | fuel + 1, r =>
    if r ≤ ws.max_row then
      let v := cleanText (ws.cellVal r 1)
      if pyIsDigit v ∧ r + 2 ≤ ws.max_row then
        (r, r + 2, v) :: scanA ws fuel (r + 3)
      else scanA ws fuel (r + 1)
    else []

/-- Embedding of get_period_blocks: merged ranges in column A whose first
    cell cleans to a digit string and which span at least 3 rows give
    3-row blocks, sorted by start row; when none qualify, fall back to
    scanning column A. -/
def get_period_blocks (ws : WsA) : List Block :=
  let blocks := ws.merged.foldl (fun acc mr =>
    if mr.min_col = 1 ∧ mr.max_col = 1 then
      let v := cleanText (ws.cellVal mr.min_row 1)
      if pyIsDigit v ∧ mr.min_row + 2 ≤ mr.max_row then
        acc ++ [(mr.min_row, mr.min_row + 2, v)]
      else acc
    else acc) []
  if blocks.isEmpty then scanA ws ws.max_row 1 else sortByStart blocks

/-- Embedding of extract_mapping: the subject comes from the first row of
    each block and the teacher from the third (start_row + 2), in the data
    column of each class; pairs with both parts empty are skipped; the key
    is class_id concatenated with the period string. -/
def extract_mapping (ws : WsA) (class_cols : List (String × Nat))
    (period_blocks : List Block) : List (String × String) :=
  class_cols.foldl (fun mapping cc =>
    period_blocks.foldl (fun mapping blk =>
      let subject := cleanText (ws.cellVal blk.1 cc.2)
      let teacher := cleanText (ws.cellVal (blk.1 + 2) cc.2)
      if subject = "" ∧ teacher = "" then mapping
      else
        let suffix :=
          if subject ≠ "" ∧ teacher ≠ "" then "(" ++ subject ++ " " ++ teacher ++ ")"
          else if subject ≠ "" then "(" ++ subject ++ ")"
          else "(" ++ teacher ++ ")"
        dictInsert mapping (cc.1 ++ blk.2.2) suffix) mapping) []

/-- Embedding of build_full_mapping over the worksheets of File A: each
    worksheet contributes its extracted mapping, later writes overwriting
    earlier ones. -/
def build_full_mapping (wss : List WsA) : List (String × String) :=
  wss.foldl (fun overall ws =>
    dictUpdate overall
      (extract_mapping ws (get_class_columns ws) (get_period_blocks ws))) []

/-- Word characters for regex word boundaries: exact for ASCII; codepoints
    at or above 0x80 are treated as word characters, which agrees with
    Python for letters and CJK ideographs. -/
def isWordChar (c : Char) : Bool :=
  c.isAlpha || c.isDigit || c == '_' || 0x80 ≤ c.val

/-- Leading word boundary before a digit: satisfied at the string start or
    after a non-word character. -/
def boundaryBefore : Option Char → Bool
  | none => true
  | some c => !isWordChar c

/-- Trailing word boundary after a digit: satisfied at the string end or
    before a non-word character. -/
def boundaryAfter : List Char → Bool
  | [] => true
  | c :: _ => !isWordChar c

/-- One attempt of TOKEN_RE at the current position, given the previous
    character for the leading boundary. On success returns group 1 (one or
    more digits and a capital letter), group 2 (one or two digits, greedy,
    subject to the trailing boundary), the last consumed character and the
    remaining characters. A run of three or more digits after the letter
    can never satisfy the trailing boundary, matching the regex: after two
    digits a further digit follows, and after one digit the second digit
    follows, both word characters. -/
def tryMatch (prev : Option Char) (l : List Char) :
    Option (List Char × List Char × Char × List Char) :=
  if !boundaryBefore prev then none
  else
    let d1 := l.takeWhile Char.isDigit
    if d1.isEmpty then none
    else
      match l.dropWhile Char.isDigit with
      | [] => none
      | L :: r2 =>
        if 'A' ≤ L ∧ L ≤ 'Z' then
          match r2.takeWhile Char.isDigit with
          | [] => none
          | a :: tail2 =>
            match tail2 with
            | _b :: _ =>
              if boundaryAfter (r2.drop 2) then
                some (d1 ++ [L], [a, _b], _b, r2.drop 2)
              else none
            | [] =>
              if boundaryAfter (r2.drop 1) then
                some (d1 ++ [L], [a], a, r2.drop 1)
              else none
        else none

/-- Left-to-right non-overlapping scan, as re.finditer: on a match resume
    after it, otherwise advance one character. Fuel bounds the recursion;
    the string length suffices since every step consumes at least one
    character. -/
def scanTokens : Nat → Option Char → List Char → List (List Char × List Char)
  | 0, _, _ => []
  | _, _, [] => []
  | fuel + 1, prev, c :: rest =>
    match tryMatch prev (c :: rest) with
    | some (g1, g2, lastc, rem) => (g1, g2) :: scanTokens fuel (some lastc) rem
    | none => scanTokens fuel (some c) rest

/-- All TOKEN_RE matches of a string, as (group 1, group 2) pairs. -/
def findTokens (s : String) : List (String × String) :=
  (scanTokens s.length none s.toList).map (fun p => (p.1.asString, p.2.asString))

/-- The alignment attributes the script reads and writes; openpyxl leaves
    all three unset by default. -/
structure PyAlignment where
  horizontal : Option String
  vertical : Option String
  wrapText : Option Bool
deriving DecidableEq, Repr

/-- Default openpyxl alignment: all attributes unset. -/
def defaultAlignment : PyAlignment := ⟨none, none, none⟩

/-- A File B cell: coordinate string, value, and alignment. -/
structure CellB where
  coordinate : String
  value : CellVal
  alignment : Option PyAlignment
deriving DecidableEq, Repr

/-- A File B worksheet: title and cells in iteration order. -/
structure WsB where
  title : String
  cells : List CellB
deriving DecidableEq, Repr

/-- The per-cell token loop of annotate_schedule: keys are deduplicated in
    order of first occurrence; resolved keys contribute suffixes, missing
    keys are reported. Returns (suffixes, missing keys). -/
def collectTokens (mapping : List (String × String)) (seen : List String) :
    List (String × String) → List String × List String
  | [] => ([], [])
  | m :: rest =>
    let key := m.1 ++ m.2
    if seen.contains key then collectTokens mapping seen rest
    else
      match dictFind mapping key with
      | some suf =>
        let r := collectTokens mapping (key :: seen) rest
        (suf :: r.1, r.2)
      | none =>
        let r := collectTokens mapping (key :: seen) rest
        (r.1, key :: r.2)

/-- Per-cell body of annotate_schedule: non-text values are skipped; when
    suffixes resolve, they are appended on new lines and the alignment is
    rewritten with wrapText on, keeping horizontal and vertical. Returns
    the new cell, the updated count (0 or 1), and (missing key, original
    text) pairs. -/
def annotateCell (mapping : List (String × String)) (c : CellB) :
    CellB × Nat × List (String × String) :=
  match c.value with
  | .vStr text =>
    let r := collectTokens mapping [] (findTokens text)
    let missing := r.2.map (fun k => (k, text))
    if r.1.isEmpty then (c, 0, missing)
    else
      let alg := c.alignment.getD defaultAlignment
      ({ c with
          value := .vStr (text ++ "\n" ++ String.intercalate "\n" r.1),
          alignment := some ⟨alg.horizontal, alg.vertical, some true⟩ },
        1, missing)
  | _ => (c, 0, [])

/-- Embedding of annotate_schedule over a workbook: returns the new
    workbook, the changed-cell count, and the unmatched records as
    (sheet title, cell coordinate, missing key, original cell text). -/
def annotate_schedule (wb : List WsB) (mapping : List (String × String)) :
    List WsB × Nat × List (String × String × String × String) :=
  ((wb.map fun ws => { ws with cells := ws.cells.map fun c => (annotateCell mapping c).1 }),
   (wb.map fun ws => (ws.cells.map fun c => (annotateCell mapping c).2.1).sum).sum,
   (wb.map fun ws =>
     (ws.cells.map fun c =>
       ((annotateCell mapping c).2.2).map fun mk => (ws.title, c.coordinate, mk.1, mk.2)).flatten).flatten)

/-- Modelled from the spec: the claimed header shape, one or more digits
    then a letter A–E, matched exactly. Used only to compare the spec
    wording with get_class_columns, which applies no such check. -/
def specHeaderShape (s : String) : Bool :=
  match s.toList.reverse with
  | [] => false
  | L :: ds => ('A' ≤ L && L ≤ 'E') && !ds.isEmpty && ds.all Char.isDigit

/-- First-occurrence deduplication keeping order, with an initial seen
    set. -/
def dedupFrom (seen : List String) : List String → List String
  | [] => []
  | k :: ks =>
    if seen.contains k then dedupFrom seen ks
    else k :: dedupFrom (k :: seen) ks

/-! Concrete worksheets and workbooks used by the counterexamples and
    witnesses below. -/

/-- Cells of a File A worksheet: header "1A" in column 2, period "1" in
    column A at row 2, subject "Math" at the first block row, teacher "X"
    at the third. -/
def cellsA1 (r c : Nat) : CellVal :=
  if r = 1 ∧ c = 2 then .vStr "1A"
  else if r = 2 ∧ c = 1 then .vStr "1"
  else if r = 2 ∧ c = 2 then .vStr "Math"
  else if r = 4 ∧ c = 2 then .vStr "X"
  else .vNone

/-- Cells identical to cellsA1 except the teacher, "Y" instead of "X". -/
def cellsA2 (r c : Nat) : CellVal :=
  if r = 1 ∧ c = 2 then .vStr "1A"
  else if r = 2 ∧ c = 1 then .vStr "1"
  else if r = 2 ∧ c = 2 then .vStr "Math"
  else if r = 4 ∧ c = 2 then .vStr "Y"
  else .vNone

/-- A worksheet whose extracted mapping is [("1A1", "(Math X)")]. -/
def wsTimetable1 : WsA := ⟨cellsA1, [], 4, 2⟩

/-- A worksheet whose extracted mapping is [("1A1", "(Math Y)")]. -/
def wsTimetable2 : WsA := ⟨cellsA2, [], 4, 2⟩

/-- A header row whose only nonempty cell, "XYZ" in column 2, is not of the
    claimed class-id shape. -/
def cellsHdr (r c : Nat) : CellVal :=
  if r = 1 ∧ c = 2 then .vStr "XYZ" else .vNone

/-- Worksheet with the single header "XYZ" and no merged ranges. -/
def wsHdr : WsA := ⟨cellsHdr, [], 1, 2⟩

/-- Column A holding "1", "2", "3" in rows 1 to 3 of a 5-row sheet with no
    merged ranges. -/
def cellsColA (r c : Nat) : CellVal :=
  if c = 1 ∧ r ≤ 3 then .vStr (toString r) else .vNone

/-- Worksheet exercising the fallback period-block scan. -/
def wsColA : WsA := ⟨cellsColA, [], 5, 1⟩

/-- A lookup table with the single entry for key "1A1". -/
def exMap : List (String × String) := [("1A1", "(Math X)")]

/-- A one-sheet, one-cell target workbook whose cell text is the token
    "1A1". -/
def exWbB : List WsB := [⟨"S", [⟨"A1", .vStr "1A1", none⟩]⟩]

/-- The text of the first cell of the first sheet of a workbook, or empty
    when absent or not text. -/
def firstCellText (wb : List WsB) : String :=
  match wb with
  | ⟨_, ⟨_, .vStr t, _⟩ :: _⟩ :: _ => t
  | _ => ""

/-- Split a character list at newlines, accumulating the current line in
    reverse. -/
def splitLinesAux (l : List Char) (cur : List Char) : List String :=
  match l with
  | [] => [cur.reverse.asString]
  | c :: rest =>
    if c == '\n' then cur.reverse.asString :: splitLinesAux rest []
    else splitLinesAux rest (c :: cur)

/-- The newline-separated lines of a string. -/
def splitLines (s : String) : List String := splitLinesAux s.toList []

/-- Discriminator for text cells, mirroring the per-cell isinstance check of
    annotate_schedule. -/
def CellVal.isStr : CellVal → Bool
  | .vStr _ => true
  | _ => false

/-- The spec-level shape of a recognized token: group 1 is one or more
    digits followed by a capital letter, group 2 is one or two digits. -/
def tokenShape (g1 g2 : String) : Prop :=
  (∃ d L, g1.toList = d ++ [L] ∧ d ≠ [] ∧ (∀ x ∈ d, x.isDigit = true) ∧
    'A' ≤ L ∧ L ≤ 'Z') ∧
  g2.toList ≠ [] ∧ g2.toList.length ≤ 2 ∧ ∀ x ∈ g2.toList, x.isDigit = true

/-- Cells for the merged-range worksheets: header "1A" at (1, 2) and period
    digit "1" at (2, 1). -/
def cellsMerged (r c : Nat) : CellVal :=
  if r = 1 ∧ c = 2 then .vStr "1A"
  else if r = 2 ∧ c = 1 then .vStr "1"
  else .vNone

/-- A worksheet whose header "1A" spans the merged columns 2 to 3 of row 1. -/
def wsMergedHdr : WsA := ⟨cellsMerged, [⟨1, 1, 2, 3⟩], 1, 4⟩

/-- A worksheet with a vertical merge over rows 2 to 4 of column A whose
    first cell is the digit "1". -/
def wsMergedCol : WsA := ⟨cellsMerged, [⟨2, 4, 1, 1⟩], 4, 2⟩

/-! Helper lemmas. -/

theorem dictFind_cons {α : Type} (p : String × α) (rest : List (String × α)) (k : String) :
    dictFind (p :: rest) k = if p.1 == k then some p.2 else dictFind rest k := by
  by_cases h : p.1 = k
  · simp [dictFind, List.find?, h]
  · have hb : (p.1 == k) = false := beq_eq_false_iff_ne.mpr h
    simp [dictFind, List.find?, hb]

theorem dictFind_insert_self {α : Type} (d : List (String × α)) (k : String) (v : α) :
    dictFind (dictInsert d k v) k = some v := by
  induction d with
  | nil => simp [dictInsert, dictFind, List.find?]
  | cons p rest ih =>
    by_cases h : p.1 = k
    · simp [dictInsert, h, dictFind_cons]
    · have hb : (p.1 == k) = false := beq_eq_false_iff_ne.mpr h
      simp [dictInsert, hb, dictFind_cons, ih]

theorem dictFind_insert_ne {α : Type} (d : List (String × α)) (k k' : String) (v : α)
    (hne : k ≠ k') : dictFind (dictInsert d k' v) k = dictFind d k := by
  induction d with
  | nil => simp [dictInsert, dictFind_cons, dictFind, List.find?, beq_eq_false_iff_ne.mpr (Ne.symm hne)]
  | cons p rest ih =>
    by_cases h : p.1 = k'
    · simp [dictInsert, h, dictFind_cons, beq_eq_false_iff_ne.mpr (Ne.symm hne)]
    · have hb : (p.1 == k') = false := beq_eq_false_iff_ne.mpr h
      simp [dictInsert, hb, dictFind_cons, ih]

theorem dictFind_eq_none_of_not_mem {α : Type} (d : List (String × α)) (k : String)
    (h : k ∉ d.map Prod.fst) : dictFind d k = none := by
  induction d with
  | nil => rfl
  | cons p rest ih =>
    simp only [List.map_cons, List.mem_cons, not_or] at h
    simp [dictFind_cons, beq_eq_false_iff_ne.mpr (Ne.symm h.1), ih h.2]

theorem dictFind_update_of_none {α : Type} (d m : List (String × α)) (k : String)
    (h : dictFind m k = none) : dictFind (dictUpdate d m) k = dictFind d k := by
  induction m generalizing d with
  | nil => rfl
  | cons p rest ih =>
    rw [dictFind_cons] at h
    by_cases hp : p.1 = k
    · rw [if_pos (beq_iff_eq.mpr hp)] at h
      exact absurd h (by simp)
    · have hb : (p.1 == k) = false := beq_eq_false_iff_ne.mpr hp
      rw [if_neg (by simp [hb])] at h
      have step : dictUpdate d (p :: rest) = dictUpdate (dictInsert d p.1 p.2) rest := rfl
      rw [step, ih _ h, dictFind_insert_ne _ _ _ _ (Ne.symm hp)]

theorem keys_dictInsert {α : Type} (d : List (String × α)) (k : String) (v : α) :
    (dictInsert d k v).map Prod.fst =
      if k ∈ d.map Prod.fst then d.map Prod.fst else d.map Prod.fst ++ [k] := by
  induction d with
  | nil => simp [dictInsert]
  | cons p rest ih =>
    by_cases h : p.1 = k
    · simp [dictInsert, h]
    · have hb : (p.1 == k) = false := beq_eq_false_iff_ne.mpr h
      by_cases hm : k ∈ rest.map Prod.fst
      · simp [dictInsert, hb, ih, hm, Ne.symm h]
      · simp [dictInsert, hb, ih, hm, Ne.symm h]

theorem keys_nodup_dictInsert {α : Type} (d : List (String × α)) (k : String) (v : α)
    (h : (d.map Prod.fst).Nodup) : ((dictInsert d k v).map Prod.fst).Nodup := by
  rw [keys_dictInsert]
  by_cases hm : k ∈ d.map Prod.fst
  · simpa [hm] using h
  · simp [hm, List.nodup_append, h]

theorem dictFind_update_of_some {α : Type} (d m : List (String × α)) (k : String) (v : α)
    (hnd : (m.map Prod.fst).Nodup) (h : dictFind m k = some v) :
    dictFind (dictUpdate d m) k = some v := by
  induction m generalizing d with
  | nil => simp [dictFind] at h
  | cons p rest ih =>
    rw [dictFind_cons] at h
    simp only [List.map_cons, List.nodup_cons] at hnd
    have step : dictUpdate d (p :: rest) = dictUpdate (dictInsert d p.1 p.2) rest := rfl
    by_cases hp : p.1 = k
    · rw [if_pos (by simpa using hp)] at h
      have hrest : dictFind rest k = none :=
        dictFind_eq_none_of_not_mem _ _ (by rw [← hp]; exact hnd.1)
      rw [step, dictFind_update_of_none _ _ _ hrest, ← hp, dictFind_insert_self]
      simpa using h
    · rw [if_neg (by simpa using hp)] at h
      rw [step, ih _ hnd.2 h]

theorem extract_mapping_keys_nodup (ws : WsA) (ccs : List (String × Nat))
    (pbs : List Block) : ((extract_mapping ws ccs pbs).map Prod.fst).Nodup := by
  have inner : ∀ (col : Nat) (cid : String) (bs : List Block) (m : List (String × String)),
      (m.map Prod.fst).Nodup →
      ((bs.foldl (fun mapping blk =>
        let subject := cleanText (ws.cellVal blk.1 col)
        let teacher := cleanText (ws.cellVal (blk.1 + 2) col)
        if subject = "" ∧ teacher = "" then mapping
        else
          let suffix :=
            if subject ≠ "" ∧ teacher ≠ "" then "(" ++ subject ++ " " ++ teacher ++ ")"
            else if subject ≠ "" then "(" ++ subject ++ ")"
            else "(" ++ teacher ++ ")"
          dictInsert mapping (cid ++ blk.2.2) suffix) m).map Prod.fst).Nodup := by
    intro col cid bs
    induction bs with
    | nil => intro m hm; exact hm
    | cons b rest ih =>
      intro m hm
      simp only [List.foldl_cons]
      apply ih
      by_cases hskip : cleanText (ws.cellVal b.1 col) = "" ∧ cleanText (ws.cellVal (b.1 + 2) col) = ""
      · simpa [hskip] using hm
      · simp only [hskip, if_false]
        exact keys_nodup_dictInsert _ _ _ hm
  have outer : ∀ (l : List (String × Nat)) (m : List (String × String)),
      (m.map Prod.fst).Nodup →
      ((l.foldl (fun mapping cc =>
        pbs.foldl (fun mapping blk =>
          let subject := cleanText (ws.cellVal blk.1 cc.2)
          let teacher := cleanText (ws.cellVal (blk.1 + 2) cc.2)
          if subject = "" ∧ teacher = "" then mapping
          else
            let suffix :=
              if subject ≠ "" ∧ teacher ≠ "" then "(" ++ subject ++ " " ++ teacher ++ ")"
              else if subject ≠ "" then "(" ++ subject ++ ")"
              else "(" ++ teacher ++ ")"
            dictInsert mapping (cc.1 ++ blk.2.2) suffix) mapping) m).map Prod.fst).Nodup := by
    intro l
    induction l with
    | nil => intro m hm; exact hm
    | cons cc rest ih =>
      intro m hm
      simp only [List.foldl_cons]
      exact ih _ (inner cc.2 cc.1 pbs m hm)
  exact outer ccs [] (by simp)

theorem annotateCell_nontext (mapping : List (String × String)) (c : CellB)
    (h : c.value.isStr = false) : annotateCell mapping c = (c, 0, []) := by
  rcases c with ⟨coord, v, al⟩
  cases v with
  | vNone => rfl
  | vStr s => simp [CellVal.isStr] at h
  | vNum n => rfl

/-- Core lemma for C9: the token loop equals first-occurrence deduplication
    followed by lookup. -/
theorem collectTokens_eq_dedup (mapping : List (String × String)) :
    ∀ (ms : List (String × String)) (seen : List String),
    collectTokens mapping seen ms =
      ((dedupFrom seen (ms.map fun p => p.1 ++ p.2)).filterMap (dictFind mapping),
       (dedupFrom seen (ms.map fun p => p.1 ++ p.2)).filter
         fun k => (dictFind mapping k).isNone) := by
  intro ms
  induction ms with
  | nil => intro seen; rfl
  | cons m rest ih =>
    intro seen
    simp only [collectTokens, List.map_cons, dedupFrom]
    by_cases hseen : seen.contains (m.1 ++ m.2)
    · simp only [hseen, if_true]
      exact ih seen
    · have hseen' : seen.contains (m.1 ++ m.2) = false := by
        simpa using hseen
      simp only [hseen', if_false, Bool.false_eq_true]
      cases hfind : dictFind mapping (m.1 ++ m.2) with
      | some suf =>
        simp only [hfind, ih ((m.1 ++ m.2) :: seen), List.filterMap_cons, List.filter_cons,
          Option.isNone]
        simp [hfind]
      | none =>
        simp only [hfind, ih ((m.1 ++ m.2) :: seen), List.filterMap_cons, List.filter_cons,
          Option.isNone]
        simp [hfind]

theorem dedupFrom_nodup : ∀ (l : List String) (seen : List String),
    (dedupFrom seen l).Nodup ∧ ∀ x ∈ dedupFrom seen l, x ∉ seen := by
  intro l
  induction l with
  | nil => intro seen; simp [dedupFrom]
  | cons k ks ih =>
    intro seen
    by_cases hseen : seen.contains k
    · simp only [dedupFrom, hseen, if_true]
      obtain ⟨h1, h2⟩ := ih seen
      exact ⟨h1, h2⟩
    · have hseen' : seen.contains k = false := by simpa using hseen
      simp only [dedupFrom, hseen', Bool.false_eq_true, if_false]
      obtain ⟨h1, h2⟩ := ih (k :: seen)
      refine ⟨List.nodup_cons.mpr ⟨fun hk => (h2 k hk) (List.mem_cons_self k seen), h1⟩, ?_⟩
      intro x hx
      rcases List.mem_cons.mp hx with rfl | hx'
      · intro hxs
        exact hseen (List.elem_iff.mpr hxs)
      · intro hxs
        exact (h2 x hx') (List.mem_cons_of_mem _ hxs)

theorem tryMatch_shape {prev : Option Char} {l : List Char} {g1 g2 : List Char}
    {lastc : Char} {rem : List Char}
    (h : tryMatch prev l = some (g1, g2, lastc, rem)) :
    (∃ d L, g1 = d ++ [L] ∧ d ≠ [] ∧ (∀ x ∈ d, x.isDigit = true) ∧
      'A' ≤ L ∧ L ≤ 'Z') ∧
    g2 ≠ [] ∧ g2.length ≤ 2 ∧ ∀ x ∈ g2, x.isDigit = true := by
  by_cases hd1 : (l.takeWhile Char.isDigit).isEmpty = true
  · simp [tryMatch, hd1] at h
  · by_cases hbb : boundaryBefore prev = false
    · simp [tryMatch, hbb] at h
    · have hbb' : boundaryBefore prev = true := by
        cases hb : boundaryBefore prev
        · exact absurd hb hbb
        · rfl
      cases hdw : l.dropWhile Char.isDigit with
      | nil => simp [tryMatch, hbb', hd1, hdw] at h
      | cons L r2 =>
        by_cases hL : 'A' ≤ L ∧ L ≤ 'Z'
        · cases htw : r2.takeWhile Char.isDigit with
          | nil => simp [tryMatch, hbb', hd1, hdw, htw, hL] at h
          | cons a tail2 =>
            cases tail2 with
            | nil =>
              by_cases hba : boundaryAfter r2.tail = true
              · simp [tryMatch, hbb', hd1, hdw, htw, hL, List.drop_one, hba] at h
                obtain ⟨h1, h2, _h3, _h4⟩ := h
                subst h1; subst h2
                refine ⟨⟨l.takeWhile Char.isDigit, L, rfl, ?_, ?_, hL.1, hL.2⟩,
                  by simp, by simp, ?_⟩
                · intro hnil
                  simp [hnil] at hd1
                · intro x hx
                  exact List.mem_takeWhile_imp hx
                · intro x hx
                  have hx' : x ∈ r2.takeWhile Char.isDigit := by
                    rw [htw]
                    simpa using hx
                  exact List.mem_takeWhile_imp hx'
              · simp [tryMatch, hbb', hd1, hdw, htw, hL, List.drop_one, hba] at h
            | cons b rest2 =>
              by_cases hba : boundaryAfter (r2.drop 2) = true
              · simp [tryMatch, hbb', hd1, hdw, htw, hL, hba] at h
                obtain ⟨h1, h2, _h3, _h4⟩ := h
                subst h1; subst h2
                refine ⟨⟨l.takeWhile Char.isDigit, L, rfl, ?_, ?_, hL.1, hL.2⟩,
                  by simp, by simp, ?_⟩
                · intro hnil
                  simp [hnil] at hd1
                · intro x hx
                  exact List.mem_takeWhile_imp hx
                · intro x hx
                  have hx' : x ∈ r2.takeWhile Char.isDigit := by
                    rw [htw]
                    rcases List.mem_cons.mp hx with rfl | hx2
                    · exact List.mem_cons_self _ _
                    · rcases List.mem_cons.mp hx2 with rfl | hx3
                      · exact List.mem_cons_of_mem _ (List.mem_cons_self _ _)
                      · simp at hx3
                  exact List.mem_takeWhile_imp hx'
              · simp [tryMatch, hbb', hd1, hdw, htw, hL, hba] at h
        · simp [tryMatch, hbb', hd1, hdw, hL] at h

theorem scanTokens_shape : ∀ (fuel : Nat) (prev : Option Char) (l : List Char)
    (p : List Char × List Char), p ∈ scanTokens fuel prev l →
    (∃ d L, p.1 = d ++ [L] ∧ d ≠ [] ∧ (∀ x ∈ d, x.isDigit = true) ∧
      'A' ≤ L ∧ L ≤ 'Z') ∧
    p.2 ≠ [] ∧ p.2.length ≤ 2 ∧ ∀ x ∈ p.2, x.isDigit = true := by
  intro fuel
  induction fuel with
  | zero => intro prev l p hp; simp [scanTokens] at hp
  | succ n ih =>
    intro prev l p hp
    cases l with
    | nil => simp [scanTokens] at hp
    | cons c rest =>
      rw [scanTokens] at hp
      cases htm : tryMatch prev (c :: rest) with
      | none =>
        rw [htm] at hp
        exact ih _ _ _ hp
      | some q =>
        obtain ⟨g1, g2, lastc, rem⟩ := q
        rw [htm] at hp
        rcases List.mem_cons.mp hp with rfl | hp'
        · exact tryMatch_shape htm
        · exact ih _ _ _ hp'

theorem mem_dedupFrom_sub :
    ∀ (l : List String) (seen : List String) (x : String),
    x ∈ dedupFrom seen l → x ∈ l := by
  intro l
  induction l with
  | nil => intro seen x hx; simp [dedupFrom] at hx
  | cons k ks ih =>
    intro seen x hx
    by_cases hs : seen.contains k
    · simp only [dedupFrom, hs, if_true] at hx
      exact List.mem_cons_of_mem _ (ih seen x hx)
    · have hs' : seen.contains k = false := by simpa using hs
      simp only [dedupFrom, hs', Bool.false_eq_true, if_false] at hx
      rcases List.mem_cons.mp hx with rfl | hx'
      · exact List.mem_cons_self _ _
      · exact List.mem_cons_of_mem _ (ih _ x hx')

theorem dictInsert_values {α : Type} {P : α → Prop} :
    ∀ (d : List (String × α)) (k : String) (v : α),
    (∀ p ∈ d, P p.2) → P v → ∀ p ∈ dictInsert d k v, P p.2 := by
  intro d
  induction d with
  | nil =>
    intro k v _ hv p hp
    simp only [dictInsert, List.mem_singleton] at hp
    subst hp; exact hv
  | cons q rest ih =>
    intro k v hd hv p hp
    by_cases hq : q.1 = k
    · simp only [dictInsert, beq_iff_eq, hq, if_true] at hp
      rcases List.mem_cons.mp hp with rfl | hp'
      · exact hv
      · exact hd p (List.mem_cons_of_mem _ hp')
    · have hb : (q.1 == k) = false := beq_eq_false_iff_ne.mpr hq
      simp only [dictInsert, hb, Bool.false_eq_true, if_false] at hp
      rcases List.mem_cons.mp hp with rfl | hp'
      · exact hd p (List.mem_cons_self _ _)
      · exact ih k v (fun r hr => hd r (List.mem_cons_of_mem _ hr)) hv p hp'

theorem mem_insertByStart (b x : Block) : ∀ (l : List Block),
    x ∈ insertByStart b l ↔ x = b ∨ x ∈ l := by
  intro l
  induction l with
  | nil => simp [insertByStart]
  | cons y ys ih =>
    simp only [insertByStart]
    by_cases hy : y.1 < b.1
    · rw [if_pos hy]
      simp only [List.mem_cons, ih]
      tauto
    · rw [if_neg hy]
      simp only [List.mem_cons]

theorem mem_sortByStart (x : Block) : ∀ (l : List Block),
    x ∈ sortByStart l ↔ x ∈ l := by
  intro l
  induction l with
  | nil => simp [sortByStart]
  | cons b rest ih =>
    simp [sortByStart, mem_insertByStart, ih]

theorem scanA_sound (ws : WsA) : ∀ (fuel r : Nat) (b : Block),
    b ∈ scanA ws fuel r →
    b.2.1 = b.1 + 2 ∧ b.2.2 = cleanText (ws.cellVal b.1 1) ∧
    pyIsDigit b.2.2 = true ∧ b.1 + 2 ≤ ws.max_row := by
  intro fuel
  induction fuel with
  | zero => intro r b hb; simp [scanA] at hb
  | succ n ih =>
    intro r b hb
    rw [scanA] at hb
    by_cases hr : r ≤ ws.max_row
    · rw [if_pos hr] at hb
      by_cases hd : pyIsDigit (cleanText (ws.cellVal r 1)) = true ∧ r + 2 ≤ ws.max_row
      · rw [if_pos hd] at hb
        rcases List.mem_cons.mp hb with rfl | hb'
        · exact ⟨rfl, rfl, hd.1, hd.2⟩
        · exact ih _ _ hb'
      · rw [if_neg hd] at hb
        exact ih _ _ hb
    · rw [if_neg hr] at hb
      simp at hb

/-! Claim theorems, counterexamples and witnesses. -/


/-- C1 counterexample: annotation is not idempotent. After the first run the
    suffix "(Math X)" occurs as a line of the annotated cell, yet the second
    run with the same table appends it again (the suffix line count rises
    from 1 to 2) and reports the cell changed again, contradicting the claim
    that an already-present suffix is never duplicated and that the second
    run does not increase the changed-cell count. -/
theorem annotate_not_idempotent_cex :
    (splitLines (firstCellText (annotate_schedule exWbB exMap).1)).count "(Math X)" = 1 ∧
    (splitLines (firstCellText
        (annotate_schedule (annotate_schedule exWbB exMap).1 exMap).1)).count "(Math X)" = 2 ∧
    (annotate_schedule (annotate_schedule exWbB exMap).1 exMap).2.1 = 1 ∧
    (annotate_schedule exWbB exMap).2.1 = 1 := by
  decide

/-- C1 amended: annotate_schedule checks only for duplicate keys within one
    cell of one run, never whether a suffix is already present in the text;
    on an annotated workbook the second run resolves the same token again,
    appends a duplicate suffix line, and counts the cell changed again. The
    runs shown: the first turns "1A1" into "1A1\n(Math X)" with count 1, the
    second turns that into "1A1\n(Math X)\n(Math X)", again with count 1. -/
theorem annotate_second_run_duplicates :
    annotate_schedule exWbB exMap =
      ([⟨"S", [⟨"A1", .vStr "1A1\n(Math X)", some ⟨none, none, some true⟩⟩]⟩], 1, []) ∧
    annotate_schedule (annotate_schedule exWbB exMap).1 exMap =
      ([⟨"S", [⟨"A1", .vStr "1A1\n(Math X)\n(Math X)", some ⟨none, none, some true⟩⟩]⟩],
        1, []) :=
  ⟨rfl, rfl⟩

/-- C2 counterexample: "1F1" matches TOKEN_RE although F is outside A–E, a
    bare class-id "1A" without trailing digits does not match although the
    claim calls the digits optional, and the lookup key recorded for the
    unmatched token "1A1" is "1A1", so the trailing digit is part of the
    lookup key. -/
theorem token_outside_shape_matches_cex :
    findTokens "1F1" = [("1F", "1")] ∧
    findTokens "1A" = [] ∧
    (annotateCell [] ⟨"A1", .vStr "1A1", none⟩).2.2 = [("1A1", "1A1")] := by
  decide

/-- C3 counterexample: get_class_columns applies no shape check; the header
    "XYZ", which is not of the form digits followed by a letter A–E, is
    still mapped to its column. -/
theorem class_columns_no_shape_check_cex :
    get_class_columns wsHdr = [("XYZ", 2)] ∧ specHeaderShape "XYZ" = false := by
  decide

/-- C7 counterexample: in the fallback scan, not every digit cell of column
    A starts a block. Rows 1 to 3 of wsColA hold "1", "2", "3"; row 2 is a
    digit cell with two rows of room below (2 + 2 ≤ 5), yet no block starts
    there, because the scan resumes only after the block emitted at row 1. -/
theorem period_blocks_fallback_cex :
    get_period_blocks wsColA = [(1, 3, "1")] ∧
    pyIsDigit (cleanText (wsColA.cellVal 2 1)) = true ∧
    ¬ ((2, 4, "2") ∈ get_period_blocks wsColA) := by
  decide

/-- C2 amended: every match of the token recognizer has group 1 equal to
    one or more digits followed by a capital letter A to Z (not only A to E)
    and group 2 equal to one or two digits, which are required, not
    optional; and every missing key recorded by the token loop is the
    concatenation group 1 ++ group 2, so the trailing digits are part of
    the lookup key. -/
theorem token_shape_amended :
    (∀ (s : String), ∀ p ∈ findTokens s, tokenShape p.1 p.2) ∧
    (∀ (mapping : List (String × String)) (t k : String),
      k ∈ (collectTokens mapping [] (findTokens t)).2 →
      ∃ p ∈ findTokens t, k = p.1 ++ p.2 ∧ dictFind mapping k = none) := by
  constructor
  · intro s p hp
    simp only [findTokens, List.mem_map] at hp
    obtain ⟨q, hq, rfl⟩ := hp
    have hs := scanTokens_shape _ _ _ q hq
    unfold tokenShape
    simp only [List.toList_asString]
    exact hs
  · intro mapping t k hk
    rw [collectTokens_eq_dedup] at hk
    simp only [List.mem_filter] at hk
    obtain ⟨hmem, hnone⟩ := hk
    have hkeys := mem_dedupFrom_sub _ _ _ hmem
    simp only [List.mem_map] at hkeys
    obtain ⟨p, hp, rfl⟩ := hkeys
    refine ⟨p, hp, rfl, ?_⟩
    simpa [Option.isNone_iff_eq_none] using hnone

theorem token_shape_amended_witness : tokenShape "1A" "1" :=
  token_shape_amended.1 "1A1" ("1A", "1") (by decide)

/-- C3 amended: get_class_columns applies no shape check: any header cell
    of row 1 whose cleaned text is nonempty is mapped. Every mapped data
    column is at least 2, so column A is never used; and a single merged
    row-1 header range starting after column A, with every other header
    cell empty, is mapped to the rightmost column of the merge. -/
theorem class_columns_amended (ws : WsA)
    (hwf : ∀ mr ∈ ws.merged, 1 ≤ mr.min_col ∧ mr.min_col ≤ mr.max_col) :
    (∀ p ∈ get_class_columns ws, 2 ≤ p.2) ∧
    (∀ mr : MRange, ws.merged = [mr] → mr.min_row = 1 → mr.max_row = 1 →
      2 ≤ mr.min_col →
      cleanText (ws.cellVal 1 mr.min_col) ≠ "" →
      (∀ col ∈ List.range' 2 (ws.max_column - 1),
        (col < mr.min_col ∨ mr.max_col < col) → cleanText (ws.cellVal 1 col) = "") →
      get_class_columns ws = [(cleanText (ws.cellVal 1 mr.min_col), mr.max_col)]) := by
  have hpass2 : ∀ (consumed : List Nat) (cols : List Nat) (acc : List (String × Nat)),
      (∀ col ∈ cols, consumed.contains col = true ∨ cleanText (ws.cellVal 1 col) = "") →
      cols.foldl (fun cc col =>
        if consumed.contains col then cc
        else
          let header_val := cleanText (ws.cellVal 1 col)
          if header_val ≠ "" then dictInsert cc header_val col else cc) acc = acc := by
    intro consumed cols
    induction cols with
    | nil => intro acc _; rfl
    | cons col rest ih =>
      intro acc hcols
      simp only [List.foldl_cons]
      rcases hcols col (List.mem_cons_self _ _) with hc | hc
      · rw [if_pos hc]
        exact ih acc fun c hcm => hcols c (List.mem_cons_of_mem _ hcm)
      · by_cases hcc : consumed.contains col
        · rw [if_pos hcc]
          exact ih acc fun c hcm => hcols c (List.mem_cons_of_mem _ hcm)
        · rw [if_neg hcc]
          simp only [hc, ne_eq, not_true_eq_false, if_false]
          exact ih acc fun c hcm => hcols c (List.mem_cons_of_mem _ hcm)
  constructor
  · -- every mapped column is at least 2
    have hstep1 : ∀ (l : List MRange) (acc : List (String × Nat) × List Nat),
        (∀ mr ∈ l, 1 ≤ mr.min_col ∧ mr.min_col ≤ mr.max_col) →
        (∀ p ∈ acc.1, 2 ≤ p.2) →
        ∀ p ∈ (l.foldl (fun acc mr =>
          if mr.min_row = 1 ∧ mr.max_row = 1 then
            let header_val := cleanText (ws.cellVal 1 mr.min_col)
            if header_val ≠ "" ∧ mr.min_col ≠ 1 then
              (dictInsert acc.1 header_val mr.max_col,
               acc.2 ++ List.range' mr.min_col (mr.max_col + 1 - mr.min_col))
            else acc
          else acc) acc).1, 2 ≤ p.2 := by
      intro l
      induction l with
      | nil => intro acc _ hacc; exact hacc
      | cons mr rest ih =>
        intro acc hl hacc
        simp only [List.foldl_cons]
        apply ih _ (fun r hr => hl r (List.mem_cons_of_mem _ hr))
        by_cases hrow : mr.min_row = 1 ∧ mr.max_row = 1
        · simp only [hrow, and_self, if_true]
          by_cases hhv : cleanText (ws.cellVal 1 mr.min_col) ≠ "" ∧ mr.min_col ≠ 1
          · rw [if_pos hhv]
            apply dictInsert_values _ _ _ hacc
            have h1 := (hl mr (List.mem_cons_self _ _)).1
            have h2 := (hl mr (List.mem_cons_self _ _)).2
            have h3 := hhv.2
            omega
          · rw [if_neg hhv]
            exact hacc
        · rw [if_neg hrow]
          exact hacc
    have hpass2v : ∀ (consumed : List Nat) (cols : List Nat) (acc : List (String × Nat)),
        (∀ col ∈ cols, 2 ≤ col) → (∀ p ∈ acc, 2 ≤ p.2) →
        ∀ p ∈ cols.foldl (fun cc col =>
          if consumed.contains col then cc
          else
            let header_val := cleanText (ws.cellVal 1 col)
            if header_val ≠ "" then dictInsert cc header_val col else cc) acc, 2 ≤ p.2 := by
      intro consumed cols
      induction cols with
      | nil => intro acc _ hacc; exact hacc
      | cons col rest ih =>
        intro acc hcols hacc
        simp only [List.foldl_cons]
        apply ih _ (fun c hcm => hcols c (List.mem_cons_of_mem _ hcm))
        by_cases hcc : consumed.contains col
        · simp only [hcc, if_true]; exact hacc
        · rw [if_neg hcc]
          by_cases hhv : cleanText (ws.cellVal 1 col) ≠ ""
          · rw [if_pos hhv]
            exact dictInsert_values _ _ _ hacc (hcols col (List.mem_cons_self _ _))
          · rw [if_neg hhv]; exact hacc
    intro p hp
    unfold get_class_columns at hp
    exact hpass2v _ _ _
      (fun col hcm => (List.mem_range'_1.mp hcm).1)
      (hstep1 ws.merged ([], []) hwf (by simp)) p hp
  · -- single merged header scenario
    intro mr hm h1r h1r' hmin hne hEmpty
    unfold get_class_columns
    rw [hm]
    simp only [List.foldl_cons, List.foldl_nil]
    rw [if_pos ⟨h1r, h1r'⟩]
    have hmin1 : mr.min_col ≠ 1 := by omega
    rw [if_pos ⟨hne, hmin1⟩]
    simp only [List.nil_append]
    have hins : dictInsert ([] : List (String × Nat)) (cleanText (ws.cellVal 1 mr.min_col))
        mr.max_col = [(cleanText (ws.cellVal 1 mr.min_col), mr.max_col)] := rfl
    rw [hins]
    apply hpass2
    intro col hcol
    by_cases hin : mr.min_col ≤ col ∧ col ≤ mr.max_col
    · left
      have : col ∈ List.range' mr.min_col (mr.max_col + 1 - mr.min_col) := by
        rw [List.mem_range'_1]
        omega
      exact List.elem_iff.mpr this
    · right
      exact hEmpty col hcol (by omega)

/-- C7 amended: every vertically merged range in column A whose first cell
    cleans to a digit string and which spans at least 3 rows contributes the
    3-row block starting at its first row; when no merged range qualifies,
    the fallback scan is sound: every returned block spans exactly rows r to
    r + 2 with a digit cell at r and r + 2 within the sheet, but digit cells
    inside an already emitted block or too close to the bottom start no
    block of their own. -/
theorem period_blocks_amended (ws : WsA) :
    (∀ mr ∈ ws.merged, mr.min_col = 1 → mr.max_col = 1 →
      pyIsDigit (cleanText (ws.cellVal mr.min_row 1)) = true →
      mr.min_row + 2 ≤ mr.max_row →
      (mr.min_row, mr.min_row + 2, cleanText (ws.cellVal mr.min_row 1))
        ∈ get_period_blocks ws) ∧
    ((∀ mr ∈ ws.merged, mr.min_col = 1 → mr.max_col = 1 →
        ¬(pyIsDigit (cleanText (ws.cellVal mr.min_row 1)) = true ∧
          mr.min_row + 2 ≤ mr.max_row)) →
      ∀ b ∈ get_period_blocks ws,
        b.2.1 = b.1 + 2 ∧ b.2.2 = cleanText (ws.cellVal b.1 1) ∧
        pyIsDigit b.2.2 = true ∧ b.1 + 2 ≤ ws.max_row) := by
  have hmono : ∀ (l : List MRange) (acc : List Block) (x : Block), x ∈ acc →
      x ∈ l.foldl (fun acc mr =>
        if mr.min_col = 1 ∧ mr.max_col = 1 then
          let v := cleanText (ws.cellVal mr.min_row 1)
          if pyIsDigit v ∧ mr.min_row + 2 ≤ mr.max_row then
            acc ++ [(mr.min_row, mr.min_row + 2, v)]
          else acc
        else acc) acc := by
    intro l
    induction l with
    | nil => intro acc x hx; exact hx
    | cons mr rest ih =>
      intro acc x hx
      simp only [List.foldl_cons]
      apply ih
      by_cases hc : mr.min_col = 1 ∧ mr.max_col = 1
      · rw [if_pos hc]
        by_cases hq : pyIsDigit (cleanText (ws.cellVal mr.min_row 1)) = true ∧
            mr.min_row + 2 ≤ mr.max_row
        · rw [if_pos hq]
          exact List.mem_append_left _ hx
        · rw [if_neg hq]
          exact hx
      · rw [if_neg hc]
        exact hx
  have hfoldmem : ∀ (l : List MRange) (acc : List Block) (mr : MRange), mr ∈ l →
      mr.min_col = 1 → mr.max_col = 1 →
      pyIsDigit (cleanText (ws.cellVal mr.min_row 1)) = true →
      mr.min_row + 2 ≤ mr.max_row →
      (mr.min_row, mr.min_row + 2, cleanText (ws.cellVal mr.min_row 1))
        ∈ l.foldl (fun acc mr =>
          if mr.min_col = 1 ∧ mr.max_col = 1 then
            let v := cleanText (ws.cellVal mr.min_row 1)
            if pyIsDigit v ∧ mr.min_row + 2 ≤ mr.max_row then
              acc ++ [(mr.min_row, mr.min_row + 2, v)]
            else acc
          else acc) acc := by
    intro l
    induction l with
    | nil => intro acc mr hmr; simp at hmr
    | cons mr0 rest ih =>
      intro acc mr hmr hc1 hc2 hdig hspan
      rcases List.mem_cons.mp hmr with rfl | hmr'
      · simp only [List.foldl_cons]
        rw [if_pos ⟨hc1, hc2⟩, if_pos ⟨hdig, hspan⟩]
        exact hmono rest _ _ (List.mem_append_right _ (List.mem_singleton.mpr rfl))
      · simp only [List.foldl_cons]
        exact ih _ mr hmr' hc1 hc2 hdig hspan
  have hfoldnil : ∀ (l : List MRange),
      (∀ mr ∈ l, mr.min_col = 1 → mr.max_col = 1 →
        ¬(pyIsDigit (cleanText (ws.cellVal mr.min_row 1)) = true ∧
          mr.min_row + 2 ≤ mr.max_row)) →
      ∀ (acc : List Block),
      l.foldl (fun acc mr =>
        if mr.min_col = 1 ∧ mr.max_col = 1 then
          let v := cleanText (ws.cellVal mr.min_row 1)
          if pyIsDigit v ∧ mr.min_row + 2 ≤ mr.max_row then
            acc ++ [(mr.min_row, mr.min_row + 2, v)]
          else acc
        else acc) acc = acc := by
    intro l
    induction l with
    | nil => intro _ acc; rfl
    | cons mr rest ih =>
      intro hl acc
      simp only [List.foldl_cons]
      have htail := ih fun r hr => hl r (List.mem_cons_of_mem _ hr)
      by_cases hc : mr.min_col = 1 ∧ mr.max_col = 1
      · rw [if_pos hc,
          if_neg (hl mr (List.mem_cons_self _ _) hc.1 hc.2)]
        exact htail acc
      · rw [if_neg hc]
        exact htail acc
  constructor
  · intro mr hmr hc1 hc2 hdig hspan
    unfold get_period_blocks
    have hblock := hfoldmem ws.merged [] mr hmr hc1 hc2 hdig hspan
    have hne : (ws.merged.foldl (fun acc mr =>
        if mr.min_col = 1 ∧ mr.max_col = 1 then
          let v := cleanText (ws.cellVal mr.min_row 1)
          if pyIsDigit v ∧ mr.min_row + 2 ≤ mr.max_row then
            acc ++ [(mr.min_row, mr.min_row + 2, v)]
          else acc
        else acc) []).isEmpty = false := by
      cases hfold : ws.merged.foldl (fun acc mr =>
          if mr.min_col = 1 ∧ mr.max_col = 1 then
            let v := cleanText (ws.cellVal mr.min_row 1)
            if pyIsDigit v ∧ mr.min_row + 2 ≤ mr.max_row then
              acc ++ [(mr.min_row, mr.min_row + 2, v)]
            else acc
          else acc) ([] : List Block) with
      | nil =>
        rw [hfold] at hblock
        simp at hblock
      | cons b bs => rfl
    rw [if_neg (by simp [hne])]
    exact (mem_sortByStart _ _).mpr hblock
  · intro hnoq b hb
    unfold get_period_blocks at hb
    rw [hfoldnil ws.merged hnoq []] at hb
    rw [if_pos (show (List.isEmpty ([] : List Block)) = true from rfl)] at hb
    exact scanA_sound ws _ _ b hb

theorem class_columns_amended_witness :
    get_class_columns wsMergedHdr = [("1A", 3)] :=
  (class_columns_amended wsMergedHdr (by decide)).2 ⟨1, 1, 2, 3⟩ rfl rfl rfl
    (by decide) (by decide) (by decide)

theorem period_blocks_amended_witness :
    (2, 4, "1") ∈ get_period_blocks wsMergedCol ∧
    pyIsDigit (("1", (3 : Nat), "x").1) = true := by
  constructor
  · exact (period_blocks_amended wsMergedCol).1 ⟨2, 4, 1, 1⟩ (by decide) rfl rfl
      (by decide) (by decide)
  · exact ((period_blocks_amended wsColA).2
      (by intro mr hmr _ _ _; simp [wsColA] at hmr) (1, 3, "1") (by decide)).2.2.1

/-- C6 (confirmed): for a (class column, period block) pair, extract_mapping
    reads the subject from the first row of the block and the teacher from
    the third (start_row + 2), skips the pair when both clean to empty, and
    otherwise stores under class_id ++ period the value "(subject teacher)",
    "(subject)" or "(teacher)" according to which parts are present. -/
theorem extract_mapping_pair_confirmed (ws : WsA) (cid : String) (col : Nat)
    (s e : Nat) (p : String) :
    extract_mapping ws [(cid, col)] [(s, e, p)] =
      (if cleanText (ws.cellVal s col) = "" ∧ cleanText (ws.cellVal (s + 2) col) = "" then []
       else [(cid ++ p,
         if cleanText (ws.cellVal s col) ≠ "" ∧ cleanText (ws.cellVal (s + 2) col) ≠ "" then
           "(" ++ cleanText (ws.cellVal s col) ++ " " ++ cleanText (ws.cellVal (s + 2) col) ++ ")"
         else if cleanText (ws.cellVal s col) ≠ "" then
           "(" ++ cleanText (ws.cellVal s col) ++ ")"
         else "(" ++ cleanText (ws.cellVal (s + 2) col) ++ ")")]) := by
  by_cases h : cleanText (ws.cellVal s col) = "" ∧ cleanText (ws.cellVal (s + 2) col) = ""
  · simp [extract_mapping, h]
  · simp [extract_mapping, h, dictInsert]

/-- C4 (confirmed): a text cell whose single recognized token has no table
    entry is left byte-for-byte unchanged, is not counted in the changed-cell
    total, and contributes exactly one UnmatchedRecord holding the sheet
    title, the cell coordinate, the missing key and the original text. -/
theorem unmatched_single_token_confirmed (title coord : String) (al : Option PyAlignment)
    (mapping : List (String × String)) (t g1 g2 : String)
    (h1 : findTokens t = [(g1, g2)]) (h2 : dictFind mapping (g1 ++ g2) = none) :
    annotate_schedule [⟨title, [⟨coord, .vStr t, al⟩]⟩] mapping =
      ([⟨title, [⟨coord, .vStr t, al⟩]⟩], 0, [(title, coord, g1 ++ g2, t)]) := by
  simp [annotate_schedule, annotateCell, h1, collectTokens, h2]

theorem unmatched_single_token_witness :
    annotate_schedule [⟨"S", [⟨"A1", .vStr "1A1", none⟩]⟩] [] =
      ([⟨"S", [⟨"A1", .vStr "1A1", none⟩]⟩], 0, [("S", "A1", "1A1", "1A1")]) :=
  unmatched_single_token_confirmed "S" "A1" none [] "1A1" "1A" "1" (by decide) rfl

/-- C5 (confirmed): when two source worksheets both define the same
    LookupKey, build_full_mapping returns the value extracted from the
    worksheet processed last, and the embedding is a total function, so no
    error arises on the duplicate key. -/
theorem last_write_wins_confirmed (ws1 ws2 : WsA) (k v1 v2 : String)
    (_hv1 : dictFind (extract_mapping ws1 (get_class_columns ws1) (get_period_blocks ws1)) k
      = some v1)
    (h2 : dictFind (extract_mapping ws2 (get_class_columns ws2) (get_period_blocks ws2)) k
      = some v2) :
    dictFind (build_full_mapping [ws1, ws2]) k = some v2 := by
  have hb : build_full_mapping [ws1, ws2] =
      dictUpdate
        (dictUpdate [] (extract_mapping ws1 (get_class_columns ws1) (get_period_blocks ws1)))
        (extract_mapping ws2 (get_class_columns ws2) (get_period_blocks ws2)) := rfl
  rw [hb]
  exact dictFind_update_of_some _ _ _ _ (extract_mapping_keys_nodup ws2 _ _) h2

theorem last_write_wins_witness :
    dictFind (build_full_mapping [wsTimetable1, wsTimetable2]) "1A1" = some "(Math Y)" :=
  last_write_wins_confirmed wsTimetable1 wsTimetable2 "1A1" "(Math X)" "(Math Y)"
    (by decide) (by decide)

/-- C8 (confirmed): the annotation pass is a total function of the
    workbook; every cell whose value is not a string is skipped by the
    per-cell type check, and on a workbook of only such cells the pass
    changes nothing, counts nothing and reports nothing, so no per-cell
    condition aborts the run. -/
theorem annotate_skips_nontext_confirmed (wb : List WsB) (mapping : List (String × String))
    (h : ∀ ws ∈ wb, ∀ c ∈ ws.cells, c.value.isStr = false) :
    annotate_schedule wb mapping = (wb, 0, []) := by
  unfold annotate_schedule
  refine Prod.ext ?_ (Prod.ext ?_ ?_)
  · simp only
    have hws : ∀ ws ∈ wb,
        ({ ws with cells := ws.cells.map fun c => (annotateCell mapping c).1 } : WsB) = id ws := by
      intro ws hws
      have hcells : ws.cells.map (fun c => (annotateCell mapping c).1) = ws.cells := by
        have hc : ∀ c ∈ ws.cells, (annotateCell mapping c).1 = id c := by
          intro c hc
          rw [annotateCell_nontext mapping c (h ws hws c hc)]
          rfl
        rw [List.map_congr_left hc, List.map_id]
      simp [hcells]
    rw [List.map_congr_left hws, List.map_id]
  · simp only
    apply List.sum_eq_zero
    intro x hx
    simp only [List.mem_map] at hx
    obtain ⟨ws, hws, rfl⟩ := hx
    apply List.sum_eq_zero
    intro y hy
    simp only [List.mem_map] at hy
    obtain ⟨c, hc, rfl⟩ := hy
    rw [annotateCell_nontext mapping c (h ws hws c hc)]
  · simp only
    rw [List.flatten_eq_nil_iff.mpr]
    intro l hl
    simp only [List.mem_map] at hl
    obtain ⟨ws, hws, rfl⟩ := hl
    rw [List.flatten_eq_nil_iff.mpr]
    intro l2 hl2
    simp only [List.mem_map] at hl2
    obtain ⟨c, hc, rfl⟩ := hl2
    rw [annotateCell_nontext mapping c (h ws hws c hc)]
    rfl

theorem annotate_skips_nontext_witness :
    annotate_schedule [⟨"S", [⟨"A1", .vNum 5, none⟩]⟩] exMap =
      ([⟨"S", [⟨"A1", .vNum 5, none⟩]⟩], 0, []) :=
  annotate_skips_nontext_confirmed [⟨"S", [⟨"A1", .vNum 5, none⟩]⟩] exMap (by decide)

/-- C9 (confirmed): within one cell the token loop deduplicates keys by
    first occurrence: the suffixes are the mapped values of the deduplicated
    key list in first-occurrence order, the missing keys are its unmapped
    members, and the deduplicated list has no duplicates, so each distinct
    key yields at most one suffix and at most one UnmatchedRecord. -/
theorem dedup_per_cell_confirmed (mapping : List (String × String)) (t : String) :
    collectTokens mapping [] (findTokens t) =
      ((dedupFrom [] ((findTokens t).map fun p => p.1 ++ p.2)).filterMap (dictFind mapping),
       (dedupFrom [] ((findTokens t).map fun p => p.1 ++ p.2)).filter
         fun k => (dictFind mapping k).isNone) ∧
    (dedupFrom [] ((findTokens t).map fun p => p.1 ++ p.2)).Nodup :=
  ⟨collectTokens_eq_dedup mapping (findTokens t) [], (dedupFrom_nodup _ []).1⟩

/-- C10 (confirmed): when the per-cell pass of annotate_schedule resolves
    no suffix, the cell (value and alignment) is untouched and uncounted;
    when it resolves suffixes, the new value is exactly the original text,
    a newline, and the suffixes joined by newlines, and the alignment is
    rewritten with wrapText true while horizontal and vertical are kept. -/
theorem cell_mutation_frame_confirmed (mapping : List (String × String)) (c : CellB)
    (t : String) (h : c.value = .vStr t) :
    ((collectTokens mapping [] (findTokens t)).1 = [] →
      (annotateCell mapping c).1 = c ∧ (annotateCell mapping c).2.1 = 0) ∧
    ((collectTokens mapping [] (findTokens t)).1 ≠ [] →
      (annotateCell mapping c).1 =
        { c with
          value := .vStr (t ++ "\n" ++
            String.intercalate "\n" (collectTokens mapping [] (findTokens t)).1),
          alignment := some ⟨(c.alignment.getD defaultAlignment).horizontal,
            (c.alignment.getD defaultAlignment).vertical, some true⟩ } ∧
      (annotateCell mapping c).2.1 = 1) := by
  rcases c with ⟨coord, v, al⟩
  simp only at h
  subst h
  constructor
  · intro hempty
    simp [annotateCell, hempty]
  · intro hne
    have : (collectTokens mapping [] (findTokens t)).1.isEmpty = false := by
      simpa [List.isEmpty_iff] using hne
    simp [annotateCell, this]

theorem cell_mutation_frame_witness :
    (annotateCell exMap ⟨"A1", .vStr "1A1", none⟩).1 =
      ⟨"A1", .vStr "1A1\n(Math X)", some ⟨none, none, some true⟩⟩ :=
  ((cell_mutation_frame_confirmed exMap ⟨"A1", .vStr "1A1", none⟩ "1A1" rfl).2
    (by decide)).1
